import Mathlib

/-!
Verification of the go-analysis-client analytics SDK.

This file shallowly embeds the parts of the repository that the checked
properties speak about:

* the AES-CBC cipher envelope of `aes.go` (`AESEncrypt`, `AESDecrypt`,
  `pkcs7Padding`, `pkcs7UnPadding`, together with the AES block cipher and
  base64 codec of the Go standard library that those functions call),
* the key-length normalization of `aes.go` and `validateKeyLength` of
  `encryption.go`,
* the error types and the retryability predicate of `errors.go`,
* the bounded event queue, the shutdown drain of `processEvents`, `Close`,
  and the status-code classification of `sendEvents` from the client file.

Go machine integers are modelled as `Nat` with explicit reductions modulo
2^8 where byte overflow matters; Go byte slices are `List Nat` whose
elements are below 256; fallible Go functions return `Except String` or
`Option`; Go `error` values are an inductive type mirroring the wrapping
structure used by the repository.
-/

/-! ## Bytes -/

/-- A Go `byte` value: a natural number below 256. -/
def isByte (b : Nat) : Prop := b < 256

/-- A Go `[]byte` value: every element is a byte. -/
def isBytes (l : List Nat) : Prop := ∀ b ∈ l, b < 256

instance (l : List Nat) : Decidable (isBytes l) := by
  unfold isBytes
  infer_instance

theorem isBytes_append {l₁ l₂ : List Nat} (h₁ : isBytes l₁) (h₂ : isBytes l₂) :
    isBytes (l₁ ++ l₂) := by
  intro b hb
  rcases List.mem_append.mp hb with h | h
  · exact h₁ b h
  · exact h₂ b h

theorem isBytes_replicate {n v : Nat} (h : v < 256) : isBytes (List.replicate n v) := by
  intro b hb
  rcases List.eq_of_mem_replicate hb with rfl
  exact h

theorem isBytes_take {l : List Nat} (h : isBytes l) (n : Nat) : isBytes (l.take n) :=
  fun b hb => h b (List.mem_of_mem_take hb)

theorem isBytes_drop {l : List Nat} (h : isBytes l) (n : Nat) : isBytes (l.drop n) :=
  fun b hb => h b (List.mem_of_mem_drop hb)

/-! ## GF(2^8) arithmetic

The AES block cipher invoked by `aes.go` through `crypto/aes` multiplies in
GF(2^8) modulo x^8+x^4+x^3+x+1.  `xtime` is multiplication by x on a byte,
`gmul` the shift-and-add product selecting bits of the second factor. -/

/-- Multiply a byte by x in GF(2^8): shift left, reduce by 0x1b on overflow. -/
def xtime (a : Nat) : Nat :=
  (2 * a % 256) ^^^ (if a.testBit 7 then 0x1b else 0)

theorem xtime_lt (a : Nat) : xtime a < 256 := by
  unfold xtime
  have h1 : 2 * a % 256 < 256 := Nat.mod_lt _ (by omega)
  have h2 : (if a.testBit 7 then 0x1b else 0) < 256 := by split <;> omega
  have := Nat.xor_lt_two_pow (n := 8) (by simpa using h1) (by simpa using h2)
  simpa using this

theorem xor_left_comm (a b c : Nat) : a ^^^ (b ^^^ c) = b ^^^ (a ^^^ c) := by
  rw [← Nat.xor_assoc, Nat.xor_comm a b, Nat.xor_assoc]

theorem xor_xor_self (a b : Nat) : a ^^^ (a ^^^ b) = b := by
  rw [← Nat.xor_assoc, Nat.xor_self, Nat.zero_xor]

theorem two_mul_xor (x y : Nat) : 2 * (x ^^^ y) = 2 * x ^^^ 2 * y := by
  have h : ∀ z : Nat, 2 * z = z <<< 1 := by
    intro z
    rw [Nat.shiftLeft_eq]
    ring
  rw [h, h, h]
  apply Nat.eq_of_testBit_eq
  intro i
  simp [Nat.testBit_shiftLeft, Nat.testBit_xor]
  by_cases h1 : 1 ≤ i <;> simp [h1]

theorem mod_two_pow_xor (x y n : Nat) : (x ^^^ y) % 2 ^ n = x % 2 ^ n ^^^ y % 2 ^ n := by
  apply Nat.eq_of_testBit_eq
  intro i
  simp [Nat.testBit_mod_two_pow, Nat.testBit_xor]
  by_cases h : i < n <;> simp [h]

/-- Multiplication by x is linear over XOR. -/
theorem xtime_xor (x y : Nat) : xtime (x ^^^ y) = xtime x ^^^ xtime y := by
  unfold xtime
  have hb : (x ^^^ y).testBit 7 = ((x.testBit 7).xor (y.testBit 7)) := by
    simp [Nat.testBit_xor]
  have hm : 2 * (x ^^^ y) % 256 = 2 * x % 256 ^^^ 2 * y % 256 := by
    rw [two_mul_xor]
    have := mod_two_pow_xor (2 * x) (2 * y) 8
    simpa using this
  rw [hm, hb]
  rcases hx : x.testBit 7 <;> rcases hy : y.testBit 7 <;>
    simp [Nat.xor_assoc, Nat.xor_comm, xor_left_comm, xor_xor_self]

/-- Shift-and-add GF(2^8) product: 8 steps over the bits of `b`. -/
def gmulAux : Nat → Nat → Nat → Nat
  | _, _, 0 => 0
  | a, b, n + 1 => (if b % 2 = 1 then a else 0) ^^^ gmulAux (xtime a) (b / 2) n

/-- GF(2^8) product of bytes `a` and `b` (8 shift-and-add steps). -/
def gmul (a b : Nat) : Nat := gmulAux a b 8

theorem gmulAux_lt {a : Nat} (ha : a < 256) (b n : Nat) : gmulAux a b n < 256 := by
  induction n generalizing a b with
  | zero => simp [gmulAux]
  | succ n ih =>
    unfold gmulAux
    have h1 : (if b % 2 = 1 then a else 0) < 256 := by split <;> omega
    have h2 : gmulAux (xtime a) (b / 2) n < 256 := ih (xtime_lt a) _
    have := Nat.xor_lt_two_pow (n := 8) (by simpa using h1) (by simpa using h2)
    simpa using this

theorem gmul_lt {a : Nat} (ha : a < 256) (b : Nat) : gmul a b < 256 :=
  gmulAux_lt ha b 8

/-- The shift-and-add product is linear over XOR in its data argument. -/
theorem gmulAux_xor (x y b n : Nat) :
    gmulAux (x ^^^ y) b n = gmulAux x b n ^^^ gmulAux y b n := by
  induction n generalizing x y b with
  | zero => simp [gmulAux]
  | succ n ih =>
    unfold gmulAux
    rw [xtime_xor, ih]
    by_cases h : b % 2 = 1 <;>
      simp [h, Nat.xor_assoc, Nat.xor_comm, xor_left_comm]

theorem gmul_xor (x y b : Nat) : gmul (x ^^^ y) b = gmul x b ^^^ gmul y b :=
  gmulAux_xor x y b 8

theorem gmulAux_zero (b n : Nat) : gmulAux 0 b n = 0 := by
  induction n generalizing b with
  | zero => simp [gmulAux]
  | succ n ih =>
    unfold gmulAux
    have hx : xtime 0 = 0 := by decide
    rw [hx, ih]
    split <;> simp

theorem gmul_zero (b : Nat) : gmul 0 b = 0 := gmulAux_zero b 8

/-! ## The AES S-box

`crypto/aes` uses the FIPS-197 S-box (stored there inside its encryption
lookup tables); we embed it as the 256-entry substitution table and its
inverse. -/

def sboxTable : List Nat := [
  99, 124, 119, 123, 242, 107, 111, 197, 48, 1, 103, 43, 254, 215, 171, 118,
  202, 130, 201, 125, 250, 89, 71, 240, 173, 212, 162, 175, 156, 164, 114, 192,
  183, 253, 147, 38, 54, 63, 247, 204, 52, 165, 229, 241, 113, 216, 49, 21,
  4, 199, 35, 195, 24, 150, 5, 154, 7, 18, 128, 226, 235, 39, 178, 117,
  9, 131, 44, 26, 27, 110, 90, 160, 82, 59, 214, 179, 41, 227, 47, 132,
  83, 209, 0, 237, 32, 252, 177, 91, 106, 203, 190, 57, 74, 76, 88, 207,
  208, 239, 170, 251, 67, 77, 51, 133, 69, 249, 2, 127, 80, 60, 159, 168,
  81, 163, 64, 143, 146, 157, 56, 245, 188, 182, 218, 33, 16, 255, 243, 210,
  205, 12, 19, 236, 95, 151, 68, 23, 196, 167, 126, 61, 100, 93, 25, 115,
  96, 129, 79, 220, 34, 42, 144, 136, 70, 238, 184, 20, 222, 94, 11, 219,
  224, 50, 58, 10, 73, 6, 36, 92, 194, 211, 172, 98, 145, 149, 228, 121,
  231, 200, 55, 109, 141, 213, 78, 169, 108, 86, 244, 234, 101, 122, 174, 8,
  186, 120, 37, 46, 28, 166, 180, 198, 232, 221, 116, 31, 75, 189, 139, 138,
  112, 62, 181, 102, 72, 3, 246, 14, 97, 53, 87, 185, 134, 193, 29, 158,
  225, 248, 152, 17, 105, 217, 142, 148, 155, 30, 135, 233, 206, 85, 40, 223,
  140, 161, 137, 13, 191, 230, 66, 104, 65, 153, 45, 15, 176, 84, 187, 22]

def invSboxTable : List Nat := [
  82, 9, 106, 213, 48, 54, 165, 56, 191, 64, 163, 158, 129, 243, 215, 251,
  124, 227, 57, 130, 155, 47, 255, 135, 52, 142, 67, 68, 196, 222, 233, 203,
  84, 123, 148, 50, 166, 194, 35, 61, 238, 76, 149, 11, 66, 250, 195, 78,
  8, 46, 161, 102, 40, 217, 36, 178, 118, 91, 162, 73, 109, 139, 209, 37,
  114, 248, 246, 100, 134, 104, 152, 22, 212, 164, 92, 204, 93, 101, 182, 146,
  108, 112, 72, 80, 253, 237, 185, 218, 94, 21, 70, 87, 167, 141, 157, 132,
  144, 216, 171, 0, 140, 188, 211, 10, 247, 228, 88, 5, 184, 179, 69, 6,
  208, 44, 30, 143, 202, 63, 15, 2, 193, 175, 189, 3, 1, 19, 138, 107,
  58, 145, 17, 65, 79, 103, 220, 234, 151, 242, 207, 206, 240, 180, 230, 115,
  150, 172, 116, 34, 231, 173, 53, 133, 226, 249, 55, 232, 28, 117, 223, 110,
  71, 241, 26, 113, 29, 41, 197, 137, 111, 183, 98, 14, 170, 24, 190, 27,
  252, 86, 62, 75, 198, 210, 121, 32, 154, 219, 192, 254, 120, 205, 90, 244,
  31, 221, 168, 51, 136, 7, 199, 49, 177, 18, 16, 89, 39, 128, 236, 95,
  96, 81, 127, 169, 25, 181, 74, 13, 45, 229, 122, 159, 147, 201, 156, 239,
  160, 224, 59, 77, 174, 42, 245, 176, 200, 235, 187, 60, 131, 83, 153, 97,
  23, 43, 4, 126, 186, 119, 214, 38, 225, 105, 20, 99, 85, 33, 12, 125]

set_option maxRecDepth 4096

/-- S-box substitution of one byte. -/
def sbox (b : Nat) : Nat := sboxTable.getD b 0

/-- Inverse S-box substitution of one byte. -/
def invSbox (b : Nat) : Nat := invSboxTable.getD b 0

theorem sbox_lt : ∀ b < 256, sbox b < 256 := by decide

theorem invSbox_lt : ∀ b < 256, invSbox b < 256 := by decide

theorem invSbox_sbox : ∀ b < 256, invSbox (sbox b) = b := by decide

/-! ## AES state

`crypto/aes` operates on 16-byte blocks.  We model a block in the FIPS-197
column-major layout as four columns of four bytes; input byte `i` of the
block is entry `i % 4` of column `i / 4`. -/

/-- One AES state column: four bytes. -/
abbrev AESCol := Nat × Nat × Nat × Nat

/-- One AES block: four columns. -/
abbrev AESBlock := AESCol × AESCol × AESCol × AESCol

/-- All four bytes of a column are in range. -/
def colBytes : AESCol → Prop
  | (a, b, c, d) => a < 256 ∧ b < 256 ∧ c < 256 ∧ d < 256

/-- All sixteen bytes of a block are in range. -/
def blockBytes : AESBlock → Prop
  | (c0, c1, c2, c3) => colBytes c0 ∧ colBytes c1 ∧ colBytes c2 ∧ colBytes c3

theorem byte_xor_lt {x y : Nat} (hx : x < 256) (hy : y < 256) : x ^^^ y < 256 := by
  have := Nat.xor_lt_two_pow (n := 8) (by simpa using hx) (by simpa using hy)
  simpa using this

theorem xor_cancel_256 (x k : Nat) : (x ^^^ k) ^^^ k = x := by
  rw [Nat.xor_assoc, Nat.xor_self, Nat.xor_zero]

/-- Componentwise XOR of two columns. -/
def xorCol : AESCol → AESCol → AESCol
  | (a, b, c, d), (e, f, g, h) => (a ^^^ e, b ^^^ f, c ^^^ g, d ^^^ h)

/-- XOR the round key into the state. -/
def addRoundKey : AESBlock → AESBlock → AESBlock
  | (c0, c1, c2, c3), (k0, k1, k2, k3) =>
    (xorCol c0 k0, xorCol c1 k1, xorCol c2 k2, xorCol c3 k3)

/-- S-box substitution on a column. -/
def subBytesCol : AESCol → AESCol
  | (a, b, c, d) => (sbox a, sbox b, sbox c, sbox d)

/-- Inverse S-box substitution on a column. -/
def invSubBytesCol : AESCol → AESCol
  | (a, b, c, d) => (invSbox a, invSbox b, invSbox c, invSbox d)

/-- S-box substitution on every byte of the state. -/
def subBytes : AESBlock → AESBlock
  | (c0, c1, c2, c3) => (subBytesCol c0, subBytesCol c1, subBytesCol c2, subBytesCol c3)

/-- Inverse S-box substitution on every byte of the state. -/
def invSubBytes : AESBlock → AESBlock
  | (c0, c1, c2, c3) =>
    (invSubBytesCol c0, invSubBytesCol c1, invSubBytesCol c2, invSubBytesCol c3)

/-- Cyclically shift row `r` of the state left by `r` positions. -/
def shiftRows : AESBlock → AESBlock
  | ((a0, a1, a2, a3), (a4, a5, a6, a7), (a8, a9, a10, a11), (a12, a13, a14, a15)) =>
    ((a0, a5, a10, a15), (a4, a9, a14, a3), (a8, a13, a2, a7), (a12, a1, a6, a11))

/-- Cyclically shift row `r` of the state right by `r` positions. -/
def invShiftRows : AESBlock → AESBlock
  | ((a0, a1, a2, a3), (a4, a5, a6, a7), (a8, a9, a10, a11), (a12, a13, a14, a15)) =>
    ((a0, a13, a10, a7), (a4, a1, a14, a11), (a8, a5, a2, a15), (a12, a9, a6, a3))

/-- MixColumns on one column: multiply by the circulant matrix (2,3,1,1). -/
def mixCol : AESCol → AESCol
  | (a, b, c, d) =>
    (gmul a 2 ^^^ gmul b 3 ^^^ c ^^^ d,
     a ^^^ gmul b 2 ^^^ gmul c 3 ^^^ d,
     a ^^^ b ^^^ gmul c 2 ^^^ gmul d 3,
     gmul a 3 ^^^ b ^^^ c ^^^ gmul d 2)

/-- Inverse MixColumns on one column: matrix (14,11,13,9). -/
def invMixCol : AESCol → AESCol
  | (a, b, c, d) =>
    (gmul a 14 ^^^ gmul b 11 ^^^ gmul c 13 ^^^ gmul d 9,
     gmul a 9 ^^^ gmul b 14 ^^^ gmul c 11 ^^^ gmul d 13,
     gmul a 13 ^^^ gmul b 9 ^^^ gmul c 14 ^^^ gmul d 11,
     gmul a 11 ^^^ gmul b 13 ^^^ gmul c 9 ^^^ gmul d 14)

/-- MixColumns on the whole state. -/
def mixColumns : AESBlock → AESBlock
  | (c0, c1, c2, c3) => (mixCol c0, mixCol c1, mixCol c2, mixCol c3)

/-- Inverse MixColumns on the whole state. -/
def invMixColumns : AESBlock → AESBlock
  | (c0, c1, c2, c3) => (invMixCol c0, invMixCol c1, invMixCol c2, invMixCol c3)

/-! ### Inverse and range lemmas for the state operations -/

theorem addRoundKey_cancel (st k : AESBlock) :
    addRoundKey (addRoundKey st k) k = st := by
  obtain ⟨⟨a0, a1, a2, a3⟩, ⟨a4, a5, a6, a7⟩, ⟨a8, a9, a10, a11⟩, ⟨a12, a13, a14, a15⟩⟩ := st
  obtain ⟨⟨k0, k1, k2, k3⟩, ⟨k4, k5, k6, k7⟩, ⟨k8, k9, k10, k11⟩, ⟨k12, k13, k14, k15⟩⟩ := k
  simp [addRoundKey, xorCol, xor_cancel_256]

theorem invShiftRows_shiftRows (st : AESBlock) : invShiftRows (shiftRows st) = st := by
  obtain ⟨⟨a0, a1, a2, a3⟩, ⟨a4, a5, a6, a7⟩, ⟨a8, a9, a10, a11⟩, ⟨a12, a13, a14, a15⟩⟩ := st
  rfl

theorem invSubBytes_subBytes (st : AESBlock) (h : blockBytes st) :
    invSubBytes (subBytes st) = st := by
  obtain ⟨⟨a0, a1, a2, a3⟩, ⟨a4, a5, a6, a7⟩, ⟨a8, a9, a10, a11⟩, ⟨a12, a13, a14, a15⟩⟩ := st
  obtain ⟨⟨h0, h1, h2, h3⟩, ⟨h4, h5, h6, h7⟩, ⟨h8, h9, h10, h11⟩, ⟨h12, h13, h14, h15⟩⟩ := h
  simp only [subBytes, invSubBytes, subBytesCol, invSubBytesCol, Prod.mk.injEq]
  and_intros <;> apply invSbox_sbox <;> assumption

theorem invMixCol_mixCol_b0 : ∀ x < 256, invMixCol (mixCol (x, 0, 0, 0)) = (x, 0, 0, 0) := by
  decide

theorem invMixCol_mixCol_b1 : ∀ x < 256, invMixCol (mixCol (0, x, 0, 0)) = (0, x, 0, 0) := by
  decide

theorem invMixCol_mixCol_b2 : ∀ x < 256, invMixCol (mixCol (0, 0, x, 0)) = (0, 0, x, 0) := by
  decide

theorem invMixCol_mixCol_b3 : ∀ x < 256, invMixCol (mixCol (0, 0, 0, x)) = (0, 0, 0, x) := by
  decide

/-- MixColumns is linear over XOR. -/
theorem mixCol_xor (u v : AESCol) : mixCol (xorCol u v) = xorCol (mixCol u) (mixCol v) := by
  obtain ⟨a, b, c, d⟩ := u
  obtain ⟨e, f, g, h⟩ := v
  simp only [mixCol, xorCol, Prod.mk.injEq, gmul_xor]
  and_intros <;> simp [Nat.xor_assoc, Nat.xor_comm, xor_left_comm]

/-- Inverse MixColumns is linear over XOR. -/
theorem invMixCol_xor (u v : AESCol) :
    invMixCol (xorCol u v) = xorCol (invMixCol u) (invMixCol v) := by
  obtain ⟨a, b, c, d⟩ := u
  obtain ⟨e, f, g, h⟩ := v
  simp only [invMixCol, xorCol, Prod.mk.injEq, gmul_xor]
  and_intros <;> simp [Nat.xor_assoc, Nat.xor_comm, xor_left_comm]

/-- Inverse MixColumns undoes MixColumns on byte-valued columns: decompose the
column into its four basis components, use linearity, and the decided basis
identities. -/
theorem invMixCol_mixCol (u : AESCol) (h : colBytes u) : invMixCol (mixCol u) = u := by
  obtain ⟨a, b, c, d⟩ := u
  obtain ⟨ha, hb, hc, hd⟩ := h
  have hdecomp : (a, b, c, d) =
      xorCol (a, 0, 0, 0) (xorCol (0, b, 0, 0) (xorCol (0, 0, c, 0) (0, 0, 0, d))) := by
    simp [xorCol]
  rw [hdecomp, mixCol_xor, mixCol_xor, mixCol_xor, invMixCol_xor, invMixCol_xor, invMixCol_xor,
    invMixCol_mixCol_b0 a ha, invMixCol_mixCol_b1 b hb, invMixCol_mixCol_b2 c hc,
    invMixCol_mixCol_b3 d hd]

theorem invMixColumns_mixColumns (st : AESBlock) (h : blockBytes st) :
    invMixColumns (mixColumns st) = st := by
  obtain ⟨c0, c1, c2, c3⟩ := st
  obtain ⟨h0, h1, h2, h3⟩ := h
  simp only [mixColumns, invMixColumns, Prod.mk.injEq]
  exact ⟨invMixCol_mixCol c0 h0, invMixCol_mixCol c1 h1,
    invMixCol_mixCol c2 h2, invMixCol_mixCol c3 h3⟩

/-! ### Range preservation of the state operations -/

theorem colBytes_xorCol {u v : AESCol} (hu : colBytes u) (hv : colBytes v) :
    colBytes (xorCol u v) := by
  obtain ⟨a, b, c, d⟩ := u
  obtain ⟨e, f, g, h⟩ := v
  obtain ⟨ha, hb, hc, hd⟩ := hu
  obtain ⟨he, hf, hg, hh⟩ := hv
  exact ⟨byte_xor_lt ha he, byte_xor_lt hb hf, byte_xor_lt hc hg, byte_xor_lt hd hh⟩

theorem blockBytes_addRoundKey {st k : AESBlock} (h : blockBytes st) (hk : blockBytes k) :
    blockBytes (addRoundKey st k) := by
  obtain ⟨c0, c1, c2, c3⟩ := st
  obtain ⟨k0, k1, k2, k3⟩ := k
  obtain ⟨h0, h1, h2, h3⟩ := h
  obtain ⟨g0, g1, g2, g3⟩ := hk
  exact ⟨colBytes_xorCol h0 g0, colBytes_xorCol h1 g1, colBytes_xorCol h2 g2,
    colBytes_xorCol h3 g3⟩

theorem colBytes_subBytesCol {u : AESCol} (h : colBytes u) : colBytes (subBytesCol u) := by
  obtain ⟨a, b, c, d⟩ := u
  obtain ⟨ha, hb, hc, hd⟩ := h
  exact ⟨sbox_lt a ha, sbox_lt b hb, sbox_lt c hc, sbox_lt d hd⟩

theorem blockBytes_subBytes {st : AESBlock} (h : blockBytes st) : blockBytes (subBytes st) := by
  obtain ⟨c0, c1, c2, c3⟩ := st
  obtain ⟨h0, h1, h2, h3⟩ := h
  exact ⟨colBytes_subBytesCol h0, colBytes_subBytesCol h1, colBytes_subBytesCol h2,
    colBytes_subBytesCol h3⟩

theorem blockBytes_shiftRows {st : AESBlock} (h : blockBytes st) : blockBytes (shiftRows st) := by
  obtain ⟨⟨a0, a1, a2, a3⟩, ⟨a4, a5, a6, a7⟩, ⟨a8, a9, a10, a11⟩, ⟨a12, a13, a14, a15⟩⟩ := st
  obtain ⟨⟨h0, h1, h2, h3⟩, ⟨h4, h5, h6, h7⟩, ⟨h8, h9, h10, h11⟩, ⟨h12, h13, h14, h15⟩⟩ := h
  exact ⟨⟨h0, h5, h10, h15⟩, ⟨h4, h9, h14, h3⟩, ⟨h8, h13, h2, h7⟩, ⟨h12, h1, h6, h11⟩⟩

theorem colBytes_mixCol {u : AESCol} (h : colBytes u) : colBytes (mixCol u) := by
  obtain ⟨a, b, c, d⟩ := u
  obtain ⟨ha, hb, hc, hd⟩ := h
  refine ⟨?_, ?_, ?_, ?_⟩
  · exact byte_xor_lt (byte_xor_lt (byte_xor_lt (gmul_lt ha 2) (gmul_lt hb 3)) hc) hd
  · exact byte_xor_lt (byte_xor_lt (byte_xor_lt ha (gmul_lt hb 2)) (gmul_lt hc 3)) hd
  · exact byte_xor_lt (byte_xor_lt (byte_xor_lt ha hb) (gmul_lt hc 2)) (gmul_lt hd 3)
  · exact byte_xor_lt (byte_xor_lt (byte_xor_lt (gmul_lt ha 3) hb) hc) (gmul_lt hd 2)

theorem blockBytes_mixColumns {st : AESBlock} (h : blockBytes st) :
    blockBytes (mixColumns st) := by
  obtain ⟨c0, c1, c2, c3⟩ := st
  obtain ⟨h0, h1, h2, h3⟩ := h
  exact ⟨colBytes_mixCol h0, colBytes_mixCol h1, colBytes_mixCol h2, colBytes_mixCol h3⟩

/-! ## AES key expansion

`crypto/aes.NewCipher` expands the 16/24/32-byte key into `4*(nr+1)` words,
`nr = nk + 6` rounds, per FIPS-197: each new word XORs the word `nk` back
with the previous word, transformed by RotWord/SubWord/Rcon at the `nk`
boundaries (and by SubWord alone at offset 4 when `nk > 6`). -/

/-- Rotate a word left by one byte. -/
def rotWord : AESCol → AESCol
  | (a, b, c, d) => (b, c, d, a)

/-- Powers of x in GF(2^8), for the round-constant schedule. -/
def rconPow : Nat → Nat
  | 0 => 1
  | n + 1 => xtime (rconPow n)

/-- Round constant for key-schedule iteration `j` (1-based). -/
def rconByte (j : Nat) : Nat := rconPow (j - 1)

/-- Group a byte list into 4-byte words (any incomplete tail is dropped;
key lengths are multiples of 4, so no tail exists on real inputs). -/
def bytesToWords : List Nat → List AESCol
  | a :: b :: c :: d :: rest => (a, b, c, d) :: bytesToWords rest
  | _ => []

/-- The FIPS-197 key-expansion loop: starting from word index `i`, append
`fuel` more words to `ws`. -/
def expandLoop (nk : Nat) (ws : List AESCol) (i : Nat) : Nat → List AESCol
  | 0 => ws
  | fuel + 1 =>
    let prev := ws.getD (i - 1) (0, 0, 0, 0)
    let temp :=
      if i % nk = 0 then
        xorCol (subBytesCol (rotWord prev)) (rconByte (i / nk), 0, 0, 0)
      else if 6 < nk ∧ i % nk = 4 then subBytesCol prev
      else prev
    expandLoop nk (ws ++ [xorCol (ws.getD (i - nk) (0, 0, 0, 0)) temp]) (i + 1) fuel

/-- Expanded key schedule of a 16/24/32-byte key, as words. -/
def keyExpansionWords (key : List Nat) : List AESCol :=
  let nk := key.length / 4
  expandLoop nk (bytesToWords key) nk (4 * (nk + 6 + 1) - nk)

/-- Group the expanded words into 16-byte round-key blocks. -/
def wordsToBlocks : List AESCol → List AESBlock
  | w0 :: w1 :: w2 :: w3 :: rest => (w0, w1, w2, w3) :: wordsToBlocks rest
  | _ => []

/-- The `nr + 1` round keys derived from an AES key. -/
def aesRoundKeys (key : List Nat) : List AESBlock := wordsToBlocks (keyExpansionWords key)

theorem rconPow_lt (n : Nat) : rconPow n < 256 := by
  cases n with
  | zero => decide
  | succ n => exact xtime_lt _

theorem colBytes_rotWord {u : AESCol} (h : colBytes u) : colBytes (rotWord u) := by
  obtain ⟨a, b, c, d⟩ := u
  obtain ⟨ha, hb, hc, hd⟩ := h
  exact ⟨hb, hc, hd, ha⟩

theorem colBytes_getD {ws : List AESCol} (h : ∀ w ∈ ws, colBytes w) (n : Nat) :
    colBytes (ws.getD n (0, 0, 0, 0)) := by
  by_cases hn : n < ws.length
  · rw [List.getD_eq_getElem ws (0, 0, 0, 0) hn]
    exact h _ (List.getElem_mem hn)
  · rw [List.getD_eq_default _ _ (by omega)]
    exact ⟨by omega, by omega, by omega, by omega⟩

theorem expandLoop_bytes {nk : Nat} : ∀ (fuel : Nat) (ws : List AESCol) (i : Nat),
    (∀ w ∈ ws, colBytes w) → ∀ w ∈ expandLoop nk ws i fuel, colBytes w := by
  intro fuel
  induction fuel with
  | zero => intro ws i h; exact h
  | succ fuel ih =>
    intro ws i h
    apply ih
    intro w hw
    rcases List.mem_append.mp hw with hw | hw
    · exact h w hw
    · rcases List.mem_singleton.mp hw with rfl
      apply colBytes_xorCol (colBytes_getD h _)
      split
      · exact colBytes_xorCol (colBytes_subBytesCol (colBytes_rotWord (colBytes_getD h _)))
          ⟨rconPow_lt _, by omega, by omega, by omega⟩
      split
      · exact colBytes_subBytesCol (colBytes_getD h _)
      · exact colBytes_getD h _

theorem bytesToWords_bytes {l : List Nat} (h : isBytes l) : ∀ w ∈ bytesToWords l, colBytes w := by
  induction l using bytesToWords.induct with
  | case1 a b c d rest ih =>
    intro w hw
    rw [bytesToWords] at hw
    rcases List.mem_cons.mp hw with rfl | hw
    · exact ⟨h a (by simp), h b (by simp), h c (by simp), h d (by simp)⟩
    · exact ih (fun x hx => h x (by simp [hx])) w hw
  | case2 l h1 =>
    intro w hw
    rw [bytesToWords] at hw
    · simp at hw
    · exact h1

theorem aesRoundKeys_bytes {key : List Nat} (h : isBytes key) :
    ∀ k ∈ aesRoundKeys key, blockBytes k := by
  have hwords : ∀ w ∈ keyExpansionWords key, colBytes w :=
    expandLoop_bytes _ _ _ (bytesToWords_bytes h)
  unfold aesRoundKeys
  generalize hws : keyExpansionWords key = ws at hwords
  clear hws
  induction ws using wordsToBlocks.induct with
  | case1 w0 w1 w2 w3 rest ih =>
    intro k hk
    rw [wordsToBlocks] at hk
    rcases List.mem_cons.mp hk with rfl | hk
    · exact ⟨hwords w0 (by simp), hwords w1 (by simp), hwords w2 (by simp),
        hwords w3 (by simp)⟩
    · exact ih (fun x hx => hwords x (by simp [hx])) k hk
  | case2 ws h1 =>
    intro k hk
    rw [wordsToBlocks] at hk
    · simp at hk
    · exact h1

/-! ## The AES block cipher

FIPS-197 Cipher and InvCipher over a round-key list `k0 :: ks`: an initial
AddRoundKey with `k0`, then one round per key of `ks`, the last round
omitting MixColumns.  InvCipher is given in recursion order mirroring the
Cipher: it undoes the rounds back-to-front. -/

/-- The rounds of the Cipher after the initial AddRoundKey: a full round
(SubBytes, ShiftRows, MixColumns, AddRoundKey) per middle key, and a final
round without MixColumns for the last key. -/
def encRounds : List AESBlock → AESBlock → AESBlock
  | [], st => st
  | [k], st => addRoundKey (shiftRows (subBytes st)) k
  | k :: k2 :: ks, st => encRounds (k2 :: ks) (addRoundKey (mixColumns (shiftRows (subBytes st))) k)

/-- Encrypt one 16-byte block with the given round keys. -/
def aesEncryptBlock (rks : List AESBlock) (st : AESBlock) : AESBlock :=
  match rks with
  | [] => st
  | k0 :: ks => encRounds ks (addRoundKey st k0)

/-- The rounds of the InvCipher, undoing `encRounds` of the same key list:
the recursive call peels rounds off the ciphertext side first. -/
def decRounds : List AESBlock → AESBlock → AESBlock
  | [], st => st
  | [k], st => invSubBytes (invShiftRows (addRoundKey st k))
  | k :: k2 :: ks, st =>
    invSubBytes (invShiftRows (invMixColumns (addRoundKey (decRounds (k2 :: ks) st) k)))

/-- Decrypt one 16-byte block with the given round keys. -/
def aesDecryptBlock (rks : List AESBlock) (st : AESBlock) : AESBlock :=
  match rks with
  | [] => st
  | k0 :: ks => addRoundKey (decRounds ks st) k0

theorem blockBytes_encRounds : ∀ (ks : List AESBlock) (st : AESBlock), blockBytes st →
    (∀ k ∈ ks, blockBytes k) → blockBytes (encRounds ks st) := by
  intro ks
  induction ks with
  | nil => intro st hst _; exact hst
  | cons k ks ih =>
    intro st hst hks
    cases ks with
    | nil =>
      exact blockBytes_addRoundKey
        (blockBytes_shiftRows (blockBytes_subBytes hst)) (hks k (by simp))
    | cons k2 ks2 =>
      rw [encRounds]
      apply ih _ _ (fun x hx => hks x (by simp [hx]))
      exact blockBytes_addRoundKey
        (blockBytes_mixColumns (blockBytes_shiftRows (blockBytes_subBytes hst)))
        (hks k (by simp))

theorem blockBytes_aesEncryptBlock {rks : List AESBlock} {st : AESBlock}
    (hst : blockBytes st) (hrks : ∀ k ∈ rks, blockBytes k) :
    blockBytes (aesEncryptBlock rks st) := by
  cases rks with
  | nil => exact hst
  | cons k0 ks =>
    exact blockBytes_encRounds ks _
      (blockBytes_addRoundKey hst (hrks k0 (by simp)))
      (fun x hx => hrks x (by simp [hx]))

/-- The InvCipher rounds undo the Cipher rounds on byte-valued states. -/
theorem decRounds_encRounds : ∀ (ks : List AESBlock) (st : AESBlock), blockBytes st →
    (∀ k ∈ ks, blockBytes k) → decRounds ks (encRounds ks st) = st := by
  intro ks
  induction ks with
  | nil => intro st _ _; rfl
  | cons k ks ih =>
    intro st hst hks
    cases ks with
    | nil =>
      rw [encRounds, decRounds, addRoundKey_cancel, invShiftRows_shiftRows,
        invSubBytes_subBytes st hst]
    | cons k2 ks2 =>
      rw [encRounds, decRounds]
      rw [ih _ (blockBytes_addRoundKey
          (blockBytes_mixColumns (blockBytes_shiftRows (blockBytes_subBytes hst)))
          (hks k (by simp)))
        (fun x hx => hks x (by simp [hx]))]
      rw [addRoundKey_cancel,
        invMixColumns_mixColumns _ (blockBytes_shiftRows (blockBytes_subBytes hst)),
        invShiftRows_shiftRows, invSubBytes_subBytes _ hst]

/-- AES block decryption inverts AES block encryption. -/
theorem aesDecryptBlock_aesEncryptBlock (rks : List AESBlock) (st : AESBlock)
    (hst : blockBytes st) (hrks : ∀ k ∈ rks, blockBytes k) :
    aesDecryptBlock rks (aesEncryptBlock rks st) = st := by
  cases rks with
  | nil => rfl
  | cons k0 ks =>
    rw [aesEncryptBlock, aesDecryptBlock]
    rw [decRounds_encRounds ks _
      (blockBytes_addRoundKey hst (hrks k0 (by simp)))
      (fun x hx => hrks x (by simp [hx]))]
    exact addRoundKey_cancel st k0

/-! ## Byte/block conversion and CBC mode

`cipher.NewCBCEncrypter/Decrypter` process the byte slice 16 bytes at a
time, each block XORed with the previous ciphertext block (the IV for the
first block). -/

/-- View the first 16 entries of a byte list as an AES block. -/
def blockOfBytes (l : List Nat) : AESBlock :=
  ((l.getD 0 0, l.getD 1 0, l.getD 2 0, l.getD 3 0),
   (l.getD 4 0, l.getD 5 0, l.getD 6 0, l.getD 7 0),
   (l.getD 8 0, l.getD 9 0, l.getD 10 0, l.getD 11 0),
   (l.getD 12 0, l.getD 13 0, l.getD 14 0, l.getD 15 0))

/-- The 16 bytes of an AES block, in input order. -/
def bytesOfBlock : AESBlock → List Nat
  | ((a0, a1, a2, a3), (a4, a5, a6, a7), (a8, a9, a10, a11), (a12, a13, a14, a15)) =>
    [a0, a1, a2, a3, a4, a5, a6, a7, a8, a9, a10, a11, a12, a13, a14, a15]

/-- Split a byte list into 16-byte blocks, dropping any incomplete tail
(the lengths fed to `CryptBlocks` are always multiples of 16). -/
def toBlocks : List Nat → List AESBlock
  | b0 :: b1 :: b2 :: b3 :: b4 :: b5 :: b6 :: b7 ::
      b8 :: b9 :: b10 :: b11 :: b12 :: b13 :: b14 :: b15 :: rest =>
    ((b0, b1, b2, b3), (b4, b5, b6, b7), (b8, b9, b10, b11), (b12, b13, b14, b15)) ::
      toBlocks rest
  | _ => []

/-- Concatenate blocks back into a byte list. -/
def ofBlocks (bs : List AESBlock) : List Nat := (bs.map bytesOfBlock).flatten

theorem bytesOfBlock_blockOfBytes (l : List Nat) (h : l.length = 16) :
    bytesOfBlock (blockOfBytes l) = l := by
  match l, h with
  | [a0, a1, a2, a3, a4, a5, a6, a7, a8, a9, a10, a11, a12, a13, a14, a15], _ => rfl

theorem exists_sixteen_cons (l : List Nat) (h : 16 ≤ l.length) :
    ∃ b0 b1 b2 b3 b4 b5 b6 b7 b8 b9 b10 b11 b12 b13 b14 b15 rest,
      l = b0 :: b1 :: b2 :: b3 :: b4 :: b5 :: b6 :: b7 :: b8 :: b9 :: b10 :: b11 :: b12 ::
        b13 :: b14 :: b15 :: rest := by
  have hsplit : l = l.take 16 ++ l.drop 16 := (List.take_append_drop 16 l).symm
  have h2 : (l.take 16).length = 16 := by rw [List.length_take]; omega
  generalize ht : l.take 16 = m at h2 hsplit
  revert hsplit
  match m, h2 with
  | [a0, a1, a2, a3, a4, a5, a6, a7, a8, a9, a10, a11, a12, a13, a14, a15], _ =>
    intro hsplit
    exact ⟨a0, a1, a2, a3, a4, a5, a6, a7, a8, a9, a10, a11, a12, a13, a14, a15, l.drop 16,
      hsplit⟩

theorem ofBlocks_toBlocks (l : List Nat) (h : l.length % 16 = 0) :
    ofBlocks (toBlocks l) = l := by
  induction l using toBlocks.induct with
  | case1 b0 b1 b2 b3 b4 b5 b6 b7 b8 b9 b10 b11 b12 b13 b14 b15 rest ih =>
    rw [toBlocks]
    show bytesOfBlock ((b0, b1, b2, b3), (b4, b5, b6, b7), (b8, b9, b10, b11),
      (b12, b13, b14, b15)) ++ ofBlocks (toBlocks rest) = _
    rw [ih (by simp at h ⊢; omega)]
    rfl
  | case2 l h1 =>
    rw [toBlocks]
    · have hlt : l.length < 16 := by
        by_contra hge
        obtain ⟨b0, b1, b2, b3, b4, b5, b6, b7, b8, b9, b10, b11, b12, b13, b14, b15, rest,
          hdec⟩ := exists_sixteen_cons l (by omega)
        exact h1 b0 b1 b2 b3 b4 b5 b6 b7 b8 b9 b10 b11 b12 b13 b14 b15 rest hdec
      have h0 : l.length = 0 := by omega
      rw [List.length_eq_zero.mp h0]
      rfl
    · exact h1

theorem getD_lt_of_isBytes {l : List Nat} (h : isBytes l) (n : Nat) : l.getD n 0 < 256 := by
  by_cases hn : n < l.length
  · rw [List.getD_eq_getElem l 0 hn]
    exact h _ (List.getElem_mem hn)
  · rw [List.getD_eq_default _ _ (by omega)]
    omega

theorem blockBytes_blockOfBytes {l : List Nat} (h : isBytes l) :
    blockBytes (blockOfBytes l) :=
  ⟨⟨getD_lt_of_isBytes h 0, getD_lt_of_isBytes h 1, getD_lt_of_isBytes h 2,
    getD_lt_of_isBytes h 3⟩,
   ⟨getD_lt_of_isBytes h 4, getD_lt_of_isBytes h 5, getD_lt_of_isBytes h 6,
    getD_lt_of_isBytes h 7⟩,
   ⟨getD_lt_of_isBytes h 8, getD_lt_of_isBytes h 9, getD_lt_of_isBytes h 10,
    getD_lt_of_isBytes h 11⟩,
   ⟨getD_lt_of_isBytes h 12, getD_lt_of_isBytes h 13, getD_lt_of_isBytes h 14,
    getD_lt_of_isBytes h 15⟩⟩

theorem toBlocks_blockBytes {l : List Nat} (h : isBytes l) :
    ∀ b ∈ toBlocks l, blockBytes b := by
  induction l using toBlocks.induct with
  | case1 b0 b1 b2 b3 b4 b5 b6 b7 b8 b9 b10 b11 b12 b13 b14 b15 rest ih =>
    intro b hb
    rw [toBlocks] at hb
    rcases List.mem_cons.mp hb with rfl | hb
    · exact ⟨⟨h b0 (by simp), h b1 (by simp), h b2 (by simp), h b3 (by simp)⟩,
        ⟨h b4 (by simp), h b5 (by simp), h b6 (by simp), h b7 (by simp)⟩,
        ⟨h b8 (by simp), h b9 (by simp), h b10 (by simp), h b11 (by simp)⟩,
        ⟨h b12 (by simp), h b13 (by simp), h b14 (by simp), h b15 (by simp)⟩⟩
    · refine ih (fun x hx => h x ?_) b hb
      simp [hx]
  | case2 l h1 =>
    intro b hb
    rw [toBlocks] at hb
    · simp at hb
    · exact h1

theorem isBytes_bytesOfBlock {b : AESBlock} (h : blockBytes b) : isBytes (bytesOfBlock b) := by
  obtain ⟨⟨a0, a1, a2, a3⟩, ⟨a4, a5, a6, a7⟩, ⟨a8, a9, a10, a11⟩, ⟨a12, a13, a14, a15⟩⟩ := b
  obtain ⟨⟨h0, h1, h2, h3⟩, ⟨h4, h5, h6, h7⟩, ⟨h8, h9, h10, h11⟩, ⟨h12, h13, h14, h15⟩⟩ := h
  intro x hx
  simp [bytesOfBlock] at hx
  rcases hx with rfl | rfl | rfl | rfl | rfl | rfl | rfl | rfl | rfl | rfl | rfl | rfl | rfl |
    rfl | rfl | rfl <;> assumption

theorem isBytes_ofBlocks {bs : List AESBlock} (h : ∀ b ∈ bs, blockBytes b) :
    isBytes (ofBlocks bs) := by
  induction bs with
  | nil => intro x hx; simp [ofBlocks] at hx
  | cons b bs ih =>
    show isBytes (bytesOfBlock b ++ ofBlocks bs)
    exact isBytes_append (isBytes_bytesOfBlock (h b (by simp)))
      (ih (fun x hx => h x (by simp [hx])))

theorem bytesOfBlock_length (b : AESBlock) : (bytesOfBlock b).length = 16 := by
  obtain ⟨⟨a0, a1, a2, a3⟩, ⟨a4, a5, a6, a7⟩, ⟨a8, a9, a10, a11⟩, ⟨a12, a13, a14, a15⟩⟩ := b
  rfl

theorem ofBlocks_length (bs : List AESBlock) : (ofBlocks bs).length = 16 * bs.length := by
  induction bs with
  | nil => rfl
  | cons b bs ih =>
    show (bytesOfBlock b ++ ofBlocks bs).length = _
    simp [bytesOfBlock_length, ih]
    ring

/-- CBC encryption: each plaintext block is XORed with the previous
ciphertext block (initially the IV) before block encryption. -/
def cbcEncrypt (rks : List AESBlock) (iv : AESBlock) : List AESBlock → List AESBlock
  | [] => []
  | b :: rest =>
    let c := aesEncryptBlock rks (addRoundKey b iv)
    c :: cbcEncrypt rks c rest

/-- CBC decryption: each ciphertext block is block-decrypted and XORed with
the previous ciphertext block (initially the IV). -/
def cbcDecrypt (rks : List AESBlock) (iv : AESBlock) : List AESBlock → List AESBlock
  | [] => []
  | c :: rest => addRoundKey (aesDecryptBlock rks c) iv :: cbcDecrypt rks c rest

theorem cbcEncrypt_length (rks : List AESBlock) :
    ∀ (bs : List AESBlock) (iv : AESBlock), (cbcEncrypt rks iv bs).length = bs.length := by
  intro bs
  induction bs with
  | nil => intro iv; rfl
  | cons b rest ih =>
    intro iv
    rw [cbcEncrypt]
    simpa using ih _

theorem cbcDecrypt_length (rks : List AESBlock) :
    ∀ (cs : List AESBlock) (iv : AESBlock), (cbcDecrypt rks iv cs).length = cs.length := by
  intro cs
  induction cs with
  | nil => intro iv; rfl
  | cons c rest ih =>
    intro iv
    rw [cbcDecrypt]
    simpa using ih _

theorem cbcEncrypt_blockBytes {rks : List AESBlock} (hrks : ∀ k ∈ rks, blockBytes k) :
    ∀ (bs : List AESBlock) (iv : AESBlock), blockBytes iv → (∀ b ∈ bs, blockBytes b) →
    ∀ c ∈ cbcEncrypt rks iv bs, blockBytes c := by
  intro bs
  induction bs with
  | nil => intro iv _ _ c hc; simp [cbcEncrypt] at hc
  | cons b rest ih =>
    intro iv hiv hbs c hc
    rw [cbcEncrypt] at hc
    have hcb : blockBytes (aesEncryptBlock rks (addRoundKey b iv)) :=
      blockBytes_aesEncryptBlock (blockBytes_addRoundKey (hbs b (by simp)) hiv) hrks
    rcases List.mem_cons.mp hc with rfl | hc
    · exact hcb
    · exact ih _ hcb (fun x hx => hbs x (by simp [hx])) c hc

/-- CBC decryption inverts CBC encryption for byte-valued blocks. -/
theorem cbcDecrypt_cbcEncrypt {rks : List AESBlock} (hrks : ∀ k ∈ rks, blockBytes k) :
    ∀ (bs : List AESBlock) (iv : AESBlock), blockBytes iv → (∀ b ∈ bs, blockBytes b) →
    cbcDecrypt rks iv (cbcEncrypt rks iv bs) = bs := by
  intro bs
  induction bs with
  | nil => intro iv _ _; rfl
  | cons b rest ih =>
    intro iv hiv hbs
    rw [cbcEncrypt, cbcDecrypt]
    have hb : blockBytes b := hbs b (by simp)
    have hark : blockBytes (addRoundKey b iv) := blockBytes_addRoundKey hb hiv
    rw [aesDecryptBlock_aesEncryptBlock rks _ hark hrks, addRoundKey_cancel]
    rw [ih _ (blockBytes_aesEncryptBlock hark hrks) (fun x hx => hbs x (by simp [hx]))]

/-! ## PKCS7 padding (`pkcs7Padding` / `pkcs7UnPadding` in aes.go and
encryption.go) -/

/-- Go function `pkcs7Padding`: append `blockSize - len % blockSize` bytes, each equal
to the pad count (identical in aes.go and encryption.go). -/
def pkcs7Padding (data : List Nat) (blockSize : Nat) : List Nat :=
  let padding := blockSize - data.length % blockSize
  data ++ List.replicate padding padding

/-- Go function `pkcs7UnPadding` from aes.go: reject an empty buffer or a last byte
larger than the buffer, otherwise strip that many trailing bytes. -/
def pkcs7UnPadding (data : List Nat) : Except String (List Nat) :=
  if data.length = 0 then .error "invalid padding size"
  else
    let unpadding := data.getD (data.length - 1) 0
    if unpadding > data.length then .error "invalid padding"
    else .ok (data.take (data.length - unpadding))

/-- Go function `pkcs7UnPadding` from encryption.go: same logic as the aes.go copy, with
a different message for the empty buffer. -/
def pkcs7UnPaddingEnc (data : List Nat) : Except String (List Nat) :=
  if data.length = 0 then .error "empty encrypted data"
  else
    let unPadding := data.getD (data.length - 1) 0
    if unPadding > data.length then .error "invalid padding"
    else .ok (data.take (data.length - unPadding))

theorem pkcs7Padding_length_mod (data : List Nat) :
    (pkcs7Padding data 16).length % 16 = 0 := by
  simp [pkcs7Padding]
  omega

theorem isBytes_pkcs7Padding {data : List Nat} (h : isBytes data) :
    isBytes (pkcs7Padding data 16) :=
  isBytes_append h (isBytes_replicate (by omega))

theorem pkcs7UnPadding_pkcs7Padding (data : List Nat) :
    pkcs7UnPadding (pkcs7Padding data 16) = .ok data := by
  have hpad : pkcs7Padding data 16 =
      data ++ List.replicate (16 - data.length % 16) (16 - data.length % 16) := rfl
  set p := 16 - data.length % 16 with hp
  have hp1 : 1 ≤ p := by omega
  have hp16 : p ≤ 16 := by omega
  have hlen : (data ++ List.replicate p p).length = data.length + p := by simp
  have hlast : (data ++ List.replicate p p).getD (data.length + p - 1) 0 = p := by
    rw [List.getD_append_right _ _ _ _ (by omega)]
    have h1 : data.length + p - 1 - data.length = p - 1 := by omega
    rw [h1]
    rw [List.getD_eq_getElem _ _ (by simp; omega)]
    simp
  rw [hpad, pkcs7UnPadding, hlen]
  rw [if_neg (by omega), hlast, if_neg (by omega)]
  have h2 : data.length + p - p = data.length := by omega
  rw [h2]
  exact congrArg Except.ok (List.take_left' rfl)

/-! ## Base64 (the `encoding/base64` StdEncoding used by aes.go)

The Go string values are modelled as character lists.  `DecodeString`
rejects input whose length is not a multiple of four, characters outside
the alphabet, and misplaced padding. -/

def b64Alphabet : List Char :=
  "ABCDEFGHIJKLMNOPQRSTUVWXYZabcdefghijklmnopqrstuvwxyz0123456789+/".toList

/-- Character for a 6-bit value. -/
def b64Char (i : Nat) : Char := b64Alphabet.getD i 'A'

/-- Index of a character in the alphabet (`none` when invalid, as in the
decode map of `encoding/base64`). -/
def b64Index (c : Char) : Option Nat := b64Alphabet.findIdx? (· = c)

/-- Go function `EncodeToString`: 3 input bytes become 4 characters; a 2-byte tail maps
to 3 characters and `=`; a 1-byte tail to 2 characters and `==`. -/
def b64EncodeGroups : List Nat → List Char
  | a :: b :: c :: rest =>
    b64Char (a / 4) :: b64Char (a % 4 * 16 + b / 16) :: b64Char (b % 16 * 4 + c / 64) ::
      b64Char (c % 64) :: b64EncodeGroups rest
  | [a, b] => [b64Char (a / 4), b64Char (a % 4 * 16 + b / 16), b64Char (b % 16 * 4), '=']
  | [a] => [b64Char (a / 4), b64Char (a % 4 * 16), '=', '=']
  | [] => []

/-- Go function `DecodeString`: consume quads, allowing `=` / `==` padding only in the
final quad; reject invalid characters and lengths not divisible by four. -/
def b64DecodeGroups : List Char → Option (List Nat)
  | [] => some []
  | c1 :: c2 :: c3 :: c4 :: rest =>
    match b64Index c1, b64Index c2 with
    | some i1, some i2 =>
      if c3 = '=' then
        if c4 = '=' ∧ rest = [] then some [i1 * 4 + i2 / 16] else none
      else
        match b64Index c3 with
        | some i3 =>
          if c4 = '=' then
            if rest = [] then some [i1 * 4 + i2 / 16, i2 % 16 * 16 + i3 / 4] else none
          else
            match b64Index c4 with
            | some i4 =>
              match b64DecodeGroups rest with
              | some bs =>
                some ((i1 * 4 + i2 / 16) :: (i2 % 16 * 16 + i3 / 4) :: (i3 % 4 * 64 + i4) :: bs)
              | none => none
            | none => none
        | none => none
    | _, _ => none
  | _ => none

theorem b64Index_b64Char : ∀ i < 64, b64Index (b64Char i) = some i := by decide

theorem b64Char_ne_pad : ∀ i < 64, b64Char i ≠ '=' := by decide

/-- Decoding inverts encoding on byte lists. -/
theorem b64DecodeGroups_b64EncodeGroups : ∀ (l : List Nat), isBytes l →
    b64DecodeGroups (b64EncodeGroups l) = some l := by
  intro l
  induction l using b64EncodeGroups.induct with
  | case1 a b c rest ih =>
    intro h
    have ha : a < 256 := h a (by simp)
    have hb : b < 256 := h b (by simp)
    have hc : c < 256 := h c (by simp)
    rw [b64EncodeGroups, b64DecodeGroups]
    rw [b64Index_b64Char (a / 4) (by omega), b64Index_b64Char (a % 4 * 16 + b / 16) (by omega),
      b64Index_b64Char (b % 16 * 4 + c / 64) (by omega), b64Index_b64Char (c % 64) (by omega)]
    dsimp only
    rw [if_neg (b64Char_ne_pad (b % 16 * 4 + c / 64) (by omega)),
      if_neg (b64Char_ne_pad (c % 64) (by omega))]
    rw [ih (fun x hx => h x (by simp [hx]))]
    dsimp only
    simp only [Option.some.injEq, List.cons.injEq]
    refine ⟨?_, ?_, ?_, trivial⟩ <;> omega
  | case2 a b =>
    intro h
    have ha : a < 256 := h a (by simp)
    have hb : b < 256 := h b (by simp)
    rw [b64EncodeGroups, b64DecodeGroups]
    rw [b64Index_b64Char (a / 4) (by omega), b64Index_b64Char (a % 4 * 16 + b / 16) (by omega),
      b64Index_b64Char (b % 16 * 4) (by omega)]
    dsimp only
    rw [if_neg (b64Char_ne_pad (b % 16 * 4) (by omega)), if_pos rfl, if_pos rfl]
    simp only [Option.some.injEq, List.cons.injEq]
    refine ⟨?_, ?_, trivial⟩ <;> omega
  | case3 a =>
    intro h
    have ha : a < 256 := h a (by simp)
    rw [b64EncodeGroups, b64DecodeGroups]
    rw [b64Index_b64Char (a / 4) (by omega), b64Index_b64Char (a % 4 * 16) (by omega)]
    dsimp only
    rw [if_pos rfl, if_pos ⟨rfl, rfl⟩]
    simp only [Option.some.injEq, List.cons.injEq]
    refine ⟨?_, trivial⟩
    omega
  | case4 =>
    intro h
    rfl

/-! ## Key-length normalization and the top-level cipher functions -/

/-- The inline key-length adjustment performed identically at the top of
`AESEncrypt` and `AESDecrypt` (aes.go): pad short keys with zero bytes to
16, truncate overlong keys down to 32/24/16. -/
def normalizeKey (key : List Nat) : List Nat :=
  let keyLen := key.length
  if keyLen ≠ 16 ∧ keyLen ≠ 24 ∧ keyLen ≠ 32 then
    if keyLen < 16 then key ++ List.replicate (16 - keyLen) 0
    else if keyLen > 32 then key.take 32
    else if keyLen > 24 then key.take 24
    else if keyLen > 16 then key.take 16
    else key
  else key

/-- Go function `validateKeyLength` from encryption.go (applied to the secret-key
string; modelled on its bytes). -/
def validateKeyLength (key : List Nat) : List Nat :=
  if key.length ≥ 32 then key.take 32
  else if key.length ≥ 24 then key.take 24
  else if key.length ≥ 16 then key.take 16
  else key ++ List.replicate (16 - key.length) 0

theorem normalizeKey_length (key : List Nat) :
    (normalizeKey key).length = 16 ∨ (normalizeKey key).length = 24 ∨
    (normalizeKey key).length = 32 := by
  simp only [normalizeKey]
  split_ifs <;> simp_all <;> omega

theorem isBytes_normalizeKey {key : List Nat} (h : isBytes key) : isBytes (normalizeKey key) := by
  simp only [normalizeKey]
  split_ifs
  · exact isBytes_append h (isBytes_replicate (by omega))
  all_goals first | exact isBytes_take h _ | exact h

/-- Go function `AESEncrypt` from aes.go: adjust the key, build the AES cipher
(`aes.NewCipher` fails only on invalid key sizes, which normalization has
ruled out), PKCS7-pad, CBC-encrypt using the first 16 key bytes as the IV,
and base64-encode.  The Go string result is modelled as a character list. -/
def AESEncrypt (key plaintext : List Nat) : Except String (List Char) :=
  let k := normalizeKey key
  if k.length = 16 ∨ k.length = 24 ∨ k.length = 32 then
    let paddedData := pkcs7Padding plaintext 16
    let iv := blockOfBytes (k.take 16)
    let ciphertext := cbcEncrypt (aesRoundKeys k) iv (toBlocks paddedData)
    .ok (b64EncodeGroups (ofBlocks ciphertext))
  else .error "crypto/aes: invalid key size"

/-- Go function `AESDecrypt` from aes.go: adjust the key, base64-decode, build the
cipher, reject ciphertext whose length is not a multiple of the block size,
CBC-decrypt with the first 16 key bytes as the IV, and strip the padding. -/
def AESDecrypt (key : List Nat) (ciphertextBase64 : List Char) : Except String (List Nat) :=
  let k := normalizeKey key
  match b64DecodeGroups ciphertextBase64 with
  | none => .error "illegal base64 data"
  | some ciphertext =>
    if k.length = 16 ∨ k.length = 24 ∨ k.length = 32 then
      if ciphertext.length % 16 ≠ 0 then
        .error "ciphertext is not a multiple of the block size"
      else
        let iv := blockOfBytes (k.take 16)
        pkcs7UnPadding (ofBlocks (cbcDecrypt (aesRoundKeys k) iv (toBlocks ciphertext)))
    else .error "crypto/aes: invalid key size"

theorem blockOfBytes_bytesOfBlock (b : AESBlock) : blockOfBytes (bytesOfBlock b) = b := by
  obtain ⟨⟨a0, a1, a2, a3⟩, ⟨a4, a5, a6, a7⟩, ⟨a8, a9, a10, a11⟩, ⟨a12, a13, a14, a15⟩⟩ := b
  rfl

theorem toBlocks_ofBlocks (bs : List AESBlock) : toBlocks (ofBlocks bs) = bs := by
  induction bs with
  | nil => rfl
  | cons b bs ih =>
    have hb : ofBlocks (b :: bs) = bytesOfBlock b ++ ofBlocks bs := by
      simp [ofBlocks]
    obtain ⟨⟨a0, a1, a2, a3⟩, ⟨a4, a5, a6, a7⟩, ⟨a8, a9, a10, a11⟩, ⟨a12, a13, a14, a15⟩⟩ := b
    rw [hb]
    show toBlocks (a0 :: a1 :: a2 :: a3 :: a4 :: a5 :: a6 :: a7 :: a8 :: a9 :: a10 :: a11 ::
      a12 :: a13 :: a14 :: a15 :: ofBlocks bs) = _
    rw [toBlocks, ih]

/-- Round-trip of the cipher envelope: encryption always succeeds on byte
inputs, and decryption with the same (un-normalized) key returns exactly
the original plaintext. -/
theorem AESDecrypt_AESEncrypt (key plaintext : List Nat)
    (hk : isBytes key) (hp : isBytes plaintext) :
    ∃ ct, AESEncrypt key plaintext = .ok ct ∧ AESDecrypt key ct = .ok plaintext := by
  have hkn := normalizeKey_length key
  have hkb : isBytes (normalizeKey key) := isBytes_normalizeKey hk
  have hrks : ∀ k ∈ aesRoundKeys (normalizeKey key), blockBytes k := aesRoundKeys_bytes hkb
  have hiv : blockBytes (blockOfBytes ((normalizeKey key).take 16)) :=
    blockBytes_blockOfBytes (isBytes_take hkb 16)
  have hpadb : isBytes (pkcs7Padding plaintext 16) := isBytes_pkcs7Padding hp
  have hblocks : ∀ b ∈ toBlocks (pkcs7Padding plaintext 16), blockBytes b :=
    toBlocks_blockBytes hpadb
  have hctb : ∀ c ∈ cbcEncrypt (aesRoundKeys (normalizeKey key))
      (blockOfBytes ((normalizeKey key).take 16)) (toBlocks (pkcs7Padding plaintext 16)),
      blockBytes c :=
    cbcEncrypt_blockBytes hrks _ _ hiv hblocks
  have hctbytes : isBytes (ofBlocks (cbcEncrypt (aesRoundKeys (normalizeKey key))
      (blockOfBytes ((normalizeKey key).take 16)) (toBlocks (pkcs7Padding plaintext 16)))) :=
    isBytes_ofBlocks hctb
  refine ⟨b64EncodeGroups (ofBlocks (cbcEncrypt (aesRoundKeys (normalizeKey key))
    (blockOfBytes ((normalizeKey key).take 16)) (toBlocks (pkcs7Padding plaintext 16)))), ?_, ?_⟩
  · rw [AESEncrypt]
    rw [if_pos hkn]
  · rw [AESDecrypt]
    rw [b64DecodeGroups_b64EncodeGroups _ hctbytes]
    dsimp only
    rw [if_pos hkn]
    rw [if_neg (by
      push_neg
      rw [ofBlocks_length]
      omega)]
    rw [toBlocks_ofBlocks]
    rw [cbcDecrypt_cbcEncrypt hrks _ _ hiv hblocks]
    rw [ofBlocks_toBlocks _ (pkcs7Padding_length_mod plaintext)]
    exact pkcs7UnPadding_pkcs7Padding plaintext

/-! ## Error model (errors.go)

Go `error` values used by the SDK form chains through `Unwrap`: the
predefined sentinel errors are leaves, `ClientError` and `NetworkError`
wrap an underlying error, and `fmt.Errorf` with `%w` wraps one too.
Sentinel identity (`errors.Is`) is modelled by constructor equality;
the SDK never stores a nil underlying error inside a wrapper, so the
wrapped field is total. -/

inductive GoErr where
  | errInvalidConfig
  | errInvalidServerURL
  | errInvalidProductName
  | errNetworkTimeout
  | errNetworkFailure
  | errEncryptionFailed
  | errDecryptionFailed
  | errInvalidKey
  | errMarshalFailed
  | errUnmarshalFailed
  | errServerResponse
  | errClientClosed
  | errBufferFull
  /-- Value `ClientError{Op, Err, Context}`; `Unwrap` returns `Err`. -/
  | clientError (op : String) (context : List (String × String)) (err : GoErr)
  /-- Value `NetworkError{Op, URL, StatusCode, Err, Retryable}`; `Unwrap` returns `Err`. -/
  | networkError (op url : String) (statusCode : Nat) (err : GoErr) (retryable : Bool)
  /-- Wrapping by `fmt.Errorf` with a %w verb. -/
  | wrapped (msg : String) (err : GoErr)
  /-- Any other leaf error, identified by its message. -/
  | generic (msg : String)
deriving DecidableEq, Repr

/-- Go call `errors.Is(e, target)`: compare along the `Unwrap` chain. -/
def errorsIs : GoErr → GoErr → Bool
  | .clientError op ctx inner, t =>
    decide (GoErr.clientError op ctx inner = t) || errorsIs inner t
  | .networkError op url sc inner r, t =>
    decide (GoErr.networkError op url sc inner r = t) || errorsIs inner t
  | .wrapped m inner, t => decide (GoErr.wrapped m inner = t) || errorsIs inner t
  | e, t => decide (e = t)

/-- Go call `errors.As(e, &netErr)` for `*NetworkError`: the `Retryable` flag of the
shallowest `NetworkError` in the chain, if any. -/
def firstNetworkRetryable : GoErr → Option Bool
  | .networkError _ _ _ _ r => some r
  | .clientError _ _ inner => firstNetworkRetryable inner
  | .wrapped _ inner => firstNetworkRetryable inner
  | _ => none

/-- Go function `isRetryableError` from errors.go: nil is not retryable; a `NetworkError`
found by `errors.As` decides by its `Retryable` flag; otherwise the two
sentinels `ErrNetworkTimeout` / `ErrNetworkFailure` are retryable; anything
else is not. -/
def isRetryableError : Option GoErr → Bool
  | none => false
  | some e =>
    match firstNetworkRetryable e with
    | some r => r
    | none => errorsIs e .errNetworkTimeout || errorsIs e .errNetworkFailure

/-- The `Unwrap` chain of an error, outermost first. -/
def errChain : GoErr → List GoErr
  | .clientError op ctx inner => GoErr.clientError op ctx inner :: errChain inner
  | .networkError op url sc inner r => GoErr.networkError op url sc inner r :: errChain inner
  | .wrapped m inner => GoErr.wrapped m inner :: errChain inner
  | e => [e]

/-- The `Retryable` flag when the value itself is a `NetworkError`. -/
def asNetworkRetryable : GoErr → Option Bool
  | .networkError _ _ _ _ r => some r
  | _ => none

/-- The retryability relation claimed by the specification: the chain holds
a `NetworkError` marked retryable, or one of the two sentinels. -/
def specRetryable (e : GoErr) : Prop :=
  (∃ c ∈ errChain e, asNetworkRetryable c = some true) ∨
  GoErr.errNetworkTimeout ∈ errChain e ∨ GoErr.errNetworkFailure ∈ errChain e

instance (e : GoErr) : Decidable (specRetryable e) := by
  unfold specRetryable
  infer_instance

theorem errorsIs_iff_mem (e t : GoErr) : errorsIs e t = true ↔ t ∈ errChain e := by
  induction e <;>
    simp [errorsIs, errChain, *] <;>
    try tauto

/-- Lemma: `errors.As` finds the shallowest `NetworkError` of the chain. -/
theorem firstNetworkRetryable_eq_findSome (e : GoErr) :
    firstNetworkRetryable e = (errChain e).findSome? asNetworkRetryable := by
  induction e <;> simp [firstNetworkRetryable, errChain, asNetworkRetryable,
    List.findSome?, *]

/-! ## Ingest queue (the buffered `events` channel and the
`select`/`default` sends in `Track`, `TrackEvent`, `TrackBatch`)

The buffered channel of capacity `bufferSize` is modelled as a list of
resident events plus the capacity; the non-blocking `select { case ch <- e;
default }` is `trySend`: it appends when there is room and reports `false`,
leaving the queue untouched, when the buffer is full.  Event values move
through the queue opaquely, so the element type is a parameter. -/

structure EventQueue (α : Type) where
  capacity : Nat
  buffer : List α
deriving Repr, DecidableEq

/-- Non-blocking channel send with a `default` branch. -/
def trySend {α : Type} (q : EventQueue α) (e : α) : EventQueue α × Bool :=
  if q.buffer.length < q.capacity then ({ q with buffer := q.buffer ++ [e] }, true)
  else (q, false)

/-- Go method `Track`: build the event and offer it to the channel; a full buffer
drops the event silently (the debug log does not change the queue). -/
def Track {α : Type} (q : EventQueue α) (e : α) : EventQueue α := (trySend q e).1

/-- Go method `TrackBatch`: offer each event of the slice in order. -/
def TrackBatch {α : Type} (q : EventQueue α) (es : List α) : EventQueue α := es.foldl Track q

/-- Default `bufferSize` set in `NewClient`. -/
def defaultBufferSize : Nat := 1000

/-- Default `batchSize` set in `NewClient`. -/
def defaultBatchSize : Nat := 20

/-! ## Shutdown drain (`processEvents`, quit branch) and `Close`

On `quit`, `processEvents` first sends the current accumulator if nonempty
(without resetting it), then repeatedly receives from the channel, sending
whenever the accumulator reaches `batchSize`, and finally sends any
remainder.  The model returns the list of batches handed to `sendEvents`,
in order. -/

/-- The `for len(c.events) > 0` receive loop of the quit branch: returns the
batches flushed inside the loop and the leftover accumulator. -/
def drainQueueLoop {α : Type} (batchSize : Nat) (batch : List α) :
    List α → List (List α) × List α
  | [] => ([], batch)
  | e :: rest =>
    let b := batch ++ [e]
    if batchSize ≤ b.length then
      ((b :: (drainQueueLoop batchSize [] rest).1), (drainQueueLoop batchSize [] rest).2)
    else drainQueueLoop batchSize b rest

/-- All batches handed to `sendEvents` by the quit branch of
`processEvents`, given the accumulator content and the queued events at the
time the stop signal is observed.  Mirrors the code exactly: the initial
nonempty accumulator is sent but not cleared before the receive loop. -/
def quitDrainFlushes {α : Type} (batchSize : Nat) (batch queue : List α) : List (List α) :=
  (if 0 < batch.length then [batch] else []) ++
  (drainQueueLoop batchSize batch queue).1 ++
  (if 0 < (drainQueueLoop batchSize batch queue).2.length then
    [(drainQueueLoop batchSize batch queue).2] else [])

/-- Go runtime `close(ch)`: panics when the channel is closed. -/
def closeChan (closed : Bool) : Except String Bool :=
  if closed then .error "close of closed channel" else .ok true

/-- Go method `Close`: `close(c.quit); c.wg.Wait(); return nil`.  The quit channel's
closed flag is the relevant state; the result is the new flag together with
the returned error (`nil`), or the runtime panic. -/
def ClientClose (quitClosed : Bool) : Except String (Bool × Option GoErr) :=
  match closeChan quitClosed with
  | .error msg => .error msg
  | .ok _ => .ok (true, none)

/-! ## Transport classification (`sendEvents` in the client file)

`sendEvents` marshals the payload (a reflection-dependent effect, supplied
as an oracle), optionally encrypts with `AESEncrypt`, posts, and classifies
the HTTP outcome: no response is a retryable `NetworkError`, a 5xx status a
retryable one, a 4xx status a non-retryable one, anything below 400 is
success. -/

/-- Outcome of `httpClient.Post`. -/
inductive PostResult where
  | netFail
  | resp (status : Nat)
deriving Repr, DecidableEq

/-- The returned error of `sendEvents` (`none` = nil): `events`, the
marshal oracle (`none` = `json.Marshal` failed), the encryption config
(`some key` when enabled), and the transport outcome. -/
def sendEvents {α : Type} (url : String) (events : List α)
    (marshal : Option (List Nat)) (enc : Option (List Nat)) (post : PostResult) :
    Option GoErr :=
  if events.length = 0 then none
  else
    match marshal with
    | none => some (.clientError "sendEvents" [] (.wrapped "marshal" .errMarshalFailed))
    | some data =>
      let proceed : Option GoErr :=
        match post with
        | .netFail => some (.networkError "POST" url 0 (.wrapped "post" .errNetworkFailure) true)
        | .resp status =>
          if 500 ≤ status then some (.networkError "POST" url status .errServerResponse true)
          else if 400 ≤ status then
            some (.networkError "POST" url status .errServerResponse false)
          else none
      match enc with
      | some key =>
        match AESEncrypt key data with
        | .error _ =>
          some (.clientError "sendEvents" [] (.wrapped "encrypt" .errEncryptionFailed))
        | .ok _ => proceed
      | none => proceed

/-- The receive loop flushes full batches and keeps a short leftover: the
flushed batches and leftover concatenate back to `batch ++ queue`, every
flushed batch has exactly `batchSize` events, and the leftover stays short.
-/
theorem drainQueueLoop_spec {α : Type} (batchSize : Nat) :
    ∀ (queue batch : List α), batch.length < batchSize →
    (drainQueueLoop batchSize batch queue).1.flatten ++
      (drainQueueLoop batchSize batch queue).2 = batch ++ queue ∧
    (∀ b ∈ (drainQueueLoop batchSize batch queue).1, b.length = batchSize) ∧
    (drainQueueLoop batchSize batch queue).2.length < batchSize := by
  intro queue
  induction queue with
  | nil =>
    intro batch hb
    exact ⟨by simp [drainQueueLoop], by simp [drainQueueLoop], by simpa [drainQueueLoop]⟩
  | cons e rest ih =>
    intro batch hb
    simp only [drainQueueLoop]
    by_cases hfull : batchSize ≤ (batch ++ [e]).length
    · have hlen : (batch ++ [e]).length = batchSize := by simp at hfull ⊢; omega
      rw [if_pos hfull]
      have h0 : ([] : List α).length < batchSize := by simp; omega
      obtain ⟨ihj, ihall, ihlft⟩ := ih [] h0
      refine ⟨?_, ?_, ihlft⟩
      · simp only [List.flatten_cons, List.append_assoc, List.nil_append] at ihj ⊢
        rw [ihj]
        simp
      · intro b hbmem
        rcases List.mem_cons.mp hbmem with rfl | hbmem
        · exact hlen
        · exact ihall b hbmem
    · rw [if_neg hfull]
      have hblen : (batch ++ [e]).length < batchSize := by omega
      obtain ⟨ihj, ihall, ihlft⟩ := ih (batch ++ [e]) hblen
      refine ⟨?_, ihall, ihlft⟩
      rw [ihj]
      simp

/-- Quit-branch drain, in the shutdown scenario of the spec (the stop
signal arrives while all pending events still sit in the queue and the
accumulator is empty): every queued event appears in the flushed batches,
in order, each batch nonempty and at most `batchSize` long. -/
theorem quitDrainFlushes_spec {α : Type} (batchSize : Nat) (hbs : 1 ≤ batchSize)
    (queue : List α) :
    (quitDrainFlushes batchSize [] queue).flatten = queue ∧
    (∀ b ∈ quitDrainFlushes batchSize [] queue, 0 < b.length ∧ b.length ≤ batchSize) := by
  obtain ⟨hj, hall, hlft⟩ := drainQueueLoop_spec batchSize queue [] (by simp; omega)
  unfold quitDrainFlushes
  rw [if_neg (by simp)]
  constructor
  · by_cases h2 : 0 < (drainQueueLoop batchSize [] queue).2.length
    · rw [if_pos h2]
      simp only [List.nil_append, List.flatten_append, List.flatten_cons,
        List.flatten_nil, List.append_nil]
      simpa using hj
    · rw [if_neg h2]
      have hnil : (drainQueueLoop batchSize [] queue).2 = [] :=
        List.length_eq_zero.mp (by omega)
      simp only [List.nil_append, List.append_nil]
      rw [hnil, List.append_nil] at hj
      simpa using hj
  · intro b hbmem
    simp only [List.nil_append, List.mem_append] at hbmem
    rcases hbmem with hbmem | hbmem
    · have := hall b hbmem
      omega
    · by_cases h2 : 0 < (drainQueueLoop batchSize [] queue).2.length
      · rw [if_pos h2] at hbmem
        rcases List.mem_singleton.mp hbmem with rfl
        omega
      · rw [if_neg h2] at hbmem
        simp at hbmem

/-! # Claim theorems -/

/-- C1: Cipher round-trip: for every key byte string and every plaintext
byte string, decrypting the result of encryption with the same key succeeds
and returns exactly the original plaintext. -/
theorem C1_cipher_roundTrip (key plaintext : List Nat)
    (hk : isBytes key) (hp : isBytes plaintext) :
    ∃ ct, AESEncrypt key plaintext = .ok ct ∧ AESDecrypt key ct = .ok plaintext :=
  AESDecrypt_AESEncrypt key plaintext hk hp

theorem C1_cipher_roundTrip_witness :
    isBytes [48, 49] ∧ isBytes [104, 105] ∧
    ∃ ct, AESEncrypt [48, 49] [104, 105] = .ok ct ∧
      AESDecrypt [48, 49] ct = .ok [104, 105] :=
  ⟨by decide, by decide, C1_cipher_roundTrip [48, 49] [104, 105] (by decide) (by decide)⟩

/-- C2: Shutdown drain completeness: when the stop signal arrives with the
events in the queue (the claim's scenario: N events accepted, then close),
the quit branch of `processEvents` hands every queued event to
`sendEvents` across one or more batches, in queue order, each batch
nonempty and of at most `batchSize` events — also when N exceeds
`batchSize`.  `Close` returns only after `processEvents` finishes this
drain (`wg.Wait`), which the model reflects by describing all batches
flushed before the quit branch returns. -/
theorem C2_shutdown_drain {α : Type} (batchSize : Nat) (hbs : 1 ≤ batchSize)
    (queue : List α) :
    (quitDrainFlushes batchSize [] queue).flatten = queue ∧
    ∀ b ∈ quitDrainFlushes batchSize [] queue, 0 < b.length ∧ b.length ≤ batchSize :=
  quitDrainFlushes_spec batchSize hbs queue

theorem C2_shutdown_drain_witness :
    (quitDrainFlushes 2 [] [10, 20, 30]).flatten = [10, 20, 30] ∧
    ∀ b ∈ quitDrainFlushes 2 ([] : List Nat) [10, 20, 30], 0 < b.length ∧ b.length ≤ 2 :=
  C2_shutdown_drain 2 (by decide) [10, 20, 30]

theorem TrackBatch_preserves {α : Type} :
    ∀ (es : List α) (q : EventQueue α),
    (TrackBatch q es).capacity = q.capacity ∧
    q.buffer.length ≤ (TrackBatch q es).buffer.length ∧
    (TrackBatch q es).buffer.take q.buffer.length = q.buffer := by
  intro es
  induction es with
  | nil => exact fun q => ⟨rfl, Nat.le_refl _, List.take_length q.buffer⟩
  | cons e es ih =>
    intro q
    have hfold : TrackBatch q (e :: es) = TrackBatch (Track q e) es := rfl
    obtain ⟨ihc, ihl, iht⟩ := ih (Track q e)
    by_cases hroom : q.buffer.length < q.capacity
    · have htrack : Track q e = { q with buffer := q.buffer ++ [e] } := by
        simp [Track, trySend, hroom]
      rw [htrack] at ihc ihl iht
      dsimp only at ihc ihl iht
      rw [hfold, htrack]
      refine ⟨ihc, ?_, ?_⟩
      · simp only [List.length_append, List.length_cons, List.length_nil] at ihl
        omega
      · have htakes : (TrackBatch { q with buffer := q.buffer ++ [e] } es).buffer.take
            q.buffer.length =
            ((TrackBatch { q with buffer := q.buffer ++ [e] } es).buffer.take
              (q.buffer ++ [e]).length).take q.buffer.length := by
          rw [List.take_take]
          congr 1
          simp only [List.length_append, List.length_cons, List.length_nil]
          omega
        rw [htakes, iht]
        exact List.take_left q.buffer [e]
    · have htrack : Track q e = q := by
        simp [Track, trySend, hroom]
      rw [htrack] at ihc ihl iht
      rw [hfold, htrack]
      exact ⟨ihc, ihl, iht⟩

/-- C3: Drop-newest, non-blocking enqueue: the `select`/`default` send of
`Track`, `TrackEvent` and `TrackBatch` is a total function (it never
suspends the caller); at capacity it reports `false` and leaves the queue
exactly as it was — the offered event is discarded, no resident event is
evicted — below capacity it appends; any sequence of enqueues keeps every
resident event in place (the old buffer stays a prefix of the new one); and
the default capacity is 1000. -/
theorem C3_enqueue_drop_newest :
    (∀ (α : Type) (q : EventQueue α) (e : α), q.capacity ≤ q.buffer.length →
      trySend q e = (q, false)) ∧
    (∀ (α : Type) (q : EventQueue α) (e : α), q.buffer.length < q.capacity →
      trySend q e = ({ q with buffer := q.buffer ++ [e] }, true)) ∧
    (∀ (α : Type) (q : EventQueue α) (es : List α),
      (TrackBatch q es).capacity = q.capacity ∧
      q.buffer.length ≤ (TrackBatch q es).buffer.length ∧
      (TrackBatch q es).buffer.take q.buffer.length = q.buffer) ∧
    defaultBufferSize = 1000 := by
  refine ⟨?_, ?_, ?_, rfl⟩
  · intro α q e h
    simp [trySend, Nat.not_lt.mpr h]
  · intro α q e h
    simp [trySend, h]
  · intro α q es
    exact TrackBatch_preserves es q

theorem C3_enqueue_drop_newest_witness :
    trySend (⟨2, [1, 2]⟩ : EventQueue Nat) 3 = (⟨2, [1, 2]⟩, false) ∧
    trySend (⟨2, [1]⟩ : EventQueue Nat) 3 = (⟨2, [1, 3]⟩, true) :=
  ⟨C3_enqueue_drop_newest.1 Nat ⟨2, [1, 2]⟩ 3 (by decide),
   C3_enqueue_drop_newest.2.1 Nat ⟨2, [1]⟩ 3 (by decide)⟩

/-- C4 counterexample: the claim says a second stop signal is a no-op or an
error return and never crashes; but `Close` runs `close(c.quit)`
unconditionally, and closing an already-closed channel panics in the Go
runtime (modelled as `Except.error`, whereas an error *return* would be
`.ok (_, some err)`).  The first call returns nil; the second panics. -/
theorem C4_counterexample :
    ClientClose false = .ok (true, none) ∧
    ClientClose true = .error "close of closed channel" :=
  ⟨rfl, rfl⟩

/-- C4 amended: a first `Close` delivers the stop signal and returns nil;
a second `Close` does not return at all — it panics with "close of closed
channel", so the stop transition is not idempotent. -/
theorem C4_second_close_panics :
    ClientClose false = .ok (true, none) ∧
    ∀ closed : Bool, closed = true →
      ClientClose closed = .error "close of closed channel" := by
  refine ⟨rfl, ?_⟩
  intro closed h
  rw [h]
  rfl

theorem C4_second_close_panics_witness :
    ClientClose true = .error "close of closed channel" :=
  C4_second_close_panics.2 true rfl

/-- C5 counterexample: a `NetworkError` whose `Retryable` flag is false but
whose underlying error is the sentinel `ErrNetworkTimeout`.  The claim's
"iff" calls any error that wraps a sentinel retryable, but
`isRetryableError` asks `errors.As` first and returns the flag of the
shallowest `NetworkError`, so this error classifies as non-retryable. -/
theorem C5_counterexample :
    isRetryableError
      (some (.networkError "POST" "http://collector" 0 .errNetworkTimeout false)) = false ∧
    specRetryable (.networkError "POST" "http://collector" 0 .errNetworkTimeout false) :=
  ⟨rfl, by decide⟩

/-- C5 amended: when the unwrap chain contains a `NetworkError`, the
retryability verdict is exactly the `Retryable` flag of the shallowest one
(whatever lies deeper); only a chain without any `NetworkError` is decided
by containing one of the sentinels `ErrNetworkTimeout` / `ErrNetworkFailure`;
nil is non-retryable. -/
theorem C5_retryable_characterization :
    isRetryableError none = false ∧
    ∀ e : GoErr,
      isRetryableError (some e) =
        (match (errChain e).findSome? asNetworkRetryable with
         | some r => r
         | none =>
           decide (GoErr.errNetworkTimeout ∈ errChain e ∨
             GoErr.errNetworkFailure ∈ errChain e)) := by
  refine ⟨rfl, ?_⟩
  intro e
  rw [← firstNetworkRetryable_eq_findSome]
  cases h : firstNetworkRetryable e with
  | some r => simp [isRetryableError, h]
  | none =>
    simp only [isRetryableError, h]
    have h1 : ∀ t, errorsIs e t = decide (t ∈ errChain e) := by
      intro t
      cases ht : errorsIs e t
      · symm
        rw [decide_eq_false_iff_not]
        intro hmem
        rw [(errorsIs_iff_mem e t).mpr hmem] at ht
        exact Bool.true_eq_false.mp ht
      · symm
        rw [decide_eq_true_eq]
        exact (errorsIs_iff_mem e t).mp ht
    rw [h1, h1]
    simp

/-- Encryption never fails on byte inputs (the key is normalized to a valid
AES length before `aes.NewCipher`). -/
theorem AESEncrypt_total {key pt : List Nat} (hk : isBytes key) (hp : isBytes pt) :
    ∃ ct, AESEncrypt key pt = .ok ct := by
  obtain ⟨ct, h, _⟩ := AESDecrypt_AESEncrypt key pt hk hp
  exact ⟨ct, h⟩

/-- C6: Transport status classification of `sendEvents`: a response below
400 (in particular any 2xx) is success; a 5xx response is a retryable
error; a 4xx response a non-retryable error; a transport-level failure with
no response is retryable; and a marshal failure of the payload is
non-retryable — regardless of whether envelope encryption is enabled. -/
theorem C6_transport_classification {α : Type} (url : String) (events : List α)
    (henv : events ≠ []) (enc : Option (List Nat)) (data : List Nat)
    (hdata : isBytes data) (henc : ∀ k, enc = some k → isBytes k) :
    (∀ status, 200 ≤ status → status < 300 →
      sendEvents url events (some data) enc (.resp status) = none) ∧
    (∀ status, 500 ≤ status →
      ∃ err, sendEvents url events (some data) enc (.resp status) = some err ∧
        isRetryableError (some err) = true) ∧
    (∀ status, 400 ≤ status → status < 500 →
      ∃ err, sendEvents url events (some data) enc (.resp status) = some err ∧
        isRetryableError (some err) = false) ∧
    (∃ err, sendEvents url events (some data) enc .netFail = some err ∧
      isRetryableError (some err) = true) ∧
    (∀ post, ∃ err, sendEvents url events none enc post = some err ∧
      isRetryableError (some err) = false) := by
  have hne : ¬events.length = 0 := fun h => henv (List.length_eq_zero.mp h)
  have hred : ∀ post, sendEvents url events (some data) enc post =
      (match post with
       | .netFail => some (.networkError "POST" url 0 (.wrapped "post" .errNetworkFailure) true)
       | .resp status =>
         if 500 ≤ status then some (.networkError "POST" url status .errServerResponse true)
         else if 400 ≤ status then some (.networkError "POST" url status .errServerResponse false)
         else none) := by
    intro post
    rcases enc with _ | key
    · simp [sendEvents, hne]
    · obtain ⟨ct, hct⟩ := AESEncrypt_total (henc key rfl) hdata
      simp [sendEvents, hne, hct]
  refine ⟨?_, ?_, ?_, ?_, ?_⟩
  · intro status h2 h3
    rw [hred]
    dsimp only
    rw [if_neg (by omega), if_neg (by omega)]
  · intro status h5
    rw [hred]
    dsimp only
    rw [if_pos h5]
    exact ⟨_, rfl, rfl⟩
  · intro status h4 h4'
    rw [hred]
    dsimp only
    rw [if_neg (by omega), if_pos h4]
    exact ⟨_, rfl, rfl⟩
  · rw [hred]
    exact ⟨_, rfl, rfl⟩
  · intro post
    have hm : sendEvents url events none enc post =
        some (.clientError "sendEvents" [] (.wrapped "marshal" .errMarshalFailed)) := by
      simp [sendEvents, hne]
    exact ⟨_, hm, rfl⟩

theorem C6_transport_classification_witness :
    sendEvents "u" [1] (some [7]) (some (List.replicate 16 65)) (.resp 204) = none ∧
    (∃ err, sendEvents "u" [1] (some [7]) (some (List.replicate 16 65)) (.resp 503) =
      some err ∧ isRetryableError (some err) = true) ∧
    (∃ err, sendEvents "u" [1] (some [7]) (some (List.replicate 16 65)) (.resp 404) =
      some err ∧ isRetryableError (some err) = false) := by
  have h := C6_transport_classification "u" [1] (by simp) (some (List.replicate 16 65)) [7]
    (by decide) (fun k hk => by cases hk; decide)
  exact ⟨h.1 204 (by omega) (by omega), h.2.1 503 (by omega), h.2.2.1 404 (by omega) (by omega)⟩

/-- C7: Deterministic encryption: `AESEncrypt` is a pure function of the
key and the plaintext alone — the Go code draws no randomness; its IV is
the first 16 bytes of the normalized key, as the second conjunct exhibits —
so two evaluations on the same input give the identical base64 ciphertext. -/
theorem C7_deterministic_encryption (key p : List Nat) :
    AESEncrypt key p = AESEncrypt key p ∧
    AESEncrypt key p =
      (if (normalizeKey key).length = 16 ∨ (normalizeKey key).length = 24 ∨
          (normalizeKey key).length = 32 then
        .ok (b64EncodeGroups (ofBlocks (cbcEncrypt (aesRoundKeys (normalizeKey key))
          (blockOfBytes ((normalizeKey key).take 16)) (toBlocks (pkcs7Padding p 16)))))
      else .error "crypto/aes: invalid key size") :=
  ⟨rfl, rfl⟩

/-- The two key adjusters of the repository agree on every key length. -/
theorem validateKeyLength_eq_normalizeKey (key : List Nat) :
    validateKeyLength key = normalizeKey key := by
  simp only [validateKeyLength, normalizeKey]
  split_ifs <;>
    first
    | rfl
    | omega
    | (exact List.take_of_length_le (by omega))

/-- C8: Key normalization: the key handed to `aes.NewCipher` always has 16,
24 or 32 bytes; keys shorter than 16 bytes are zero-padded to 16, keys
longer than 32 bytes truncated to 32, keys of exactly 16/24/32 bytes left
unchanged; `validateKeyLength` of encryption.go performs the identical
adjustment; and encrypting then decrypting with the same original key
round-trips for every pre-normalization length. -/
theorem C8_key_normalization :
    (∀ key : List Nat, (normalizeKey key).length = 16 ∨ (normalizeKey key).length = 24 ∨
      (normalizeKey key).length = 32) ∧
    (∀ key : List Nat, key.length < 16 →
      normalizeKey key = key ++ List.replicate (16 - key.length) 0) ∧
    (∀ key : List Nat, 32 < key.length → normalizeKey key = key.take 32) ∧
    (∀ key : List Nat, key.length = 16 ∨ key.length = 24 ∨ key.length = 32 →
      normalizeKey key = key) ∧
    (∀ key : List Nat, validateKeyLength key = normalizeKey key) ∧
    (∀ key plaintext : List Nat, isBytes key → isBytes plaintext →
      ∃ ct, AESEncrypt key plaintext = .ok ct ∧ AESDecrypt key ct = .ok plaintext) := by
  refine ⟨normalizeKey_length, ?_, ?_, ?_, validateKeyLength_eq_normalizeKey,
    AESDecrypt_AESEncrypt⟩
  · intro key h
    simp only [normalizeKey]
    rw [if_pos (by omega), if_pos h]
  · intro key h
    simp only [normalizeKey]
    rw [if_pos (by omega), if_neg (by omega), if_pos h]
  · intro key h
    simp only [normalizeKey]
    rw [if_neg (by omega)]

theorem C8_key_normalization_witness :
    normalizeKey [1, 2, 3, 4, 5, 6, 7, 8, 9, 10] =
      [1, 2, 3, 4, 5, 6, 7, 8, 9, 10] ++ List.replicate 6 0 ∧
    normalizeKey (List.replicate 40 7) = (List.replicate 40 7).take 32 ∧
    normalizeKey (List.replicate 24 7) = List.replicate 24 7 ∧
    (∃ ct, AESEncrypt [1, 2, 3, 4, 5, 6, 7, 8, 9, 10] [104] = .ok ct ∧
      AESDecrypt [1, 2, 3, 4, 5, 6, 7, 8, 9, 10] ct = .ok [104]) :=
  ⟨C8_key_normalization.2.1 _ (by decide),
   C8_key_normalization.2.2.1 _ (by decide),
   C8_key_normalization.2.2.2.1 _ (by decide),
   C8_key_normalization.2.2.2.2.2 _ _ (by decide) (by decide)⟩

/-- C9: Fail-closed decryption: `AESDecrypt` returns an error — never a
truncated or garbage plaintext — on invalid base64, on decoded ciphertext whose length
is not a multiple of 16, on empty decoded ciphertext, and when the final
decrypted byte exceeds the decrypted buffer's length. -/
theorem C9_decrypt_fail_closed :
    (∀ (key : List Nat) (s : List Char), b64DecodeGroups s = none →
      AESDecrypt key s = .error "illegal base64 data") ∧
    (∀ (key : List Nat) (s : List Char) (data : List Nat),
      b64DecodeGroups s = some data → data.length % 16 ≠ 0 →
      AESDecrypt key s = .error "ciphertext is not a multiple of the block size") ∧
    (∀ (key : List Nat) (s : List Char), b64DecodeGroups s = some [] →
      AESDecrypt key s = .error "invalid padding size") ∧
    (∀ (key : List Nat) (s : List Char) (data : List Nat),
      b64DecodeGroups s = some data → data.length % 16 = 0 →
      (ofBlocks (cbcDecrypt (aesRoundKeys (normalizeKey key))
        (blockOfBytes ((normalizeKey key).take 16)) (toBlocks data))).length <
        (ofBlocks (cbcDecrypt (aesRoundKeys (normalizeKey key))
          (blockOfBytes ((normalizeKey key).take 16)) (toBlocks data))).getD
          ((ofBlocks (cbcDecrypt (aesRoundKeys (normalizeKey key))
            (blockOfBytes ((normalizeKey key).take 16)) (toBlocks data))).length - 1) 0 →
      AESDecrypt key s = .error "invalid padding") := by
  refine ⟨?_, ?_, ?_, ?_⟩
  · intro key s hdec
    simp only [AESDecrypt]
    rw [hdec]
  · intro key s data hdec hmod
    simp only [AESDecrypt]
    rw [hdec]
    dsimp only
    rw [if_pos (normalizeKey_length key), if_pos hmod]
  · intro key s hdec
    simp only [AESDecrypt]
    rw [hdec]
    dsimp only
    rw [if_pos (normalizeKey_length key), if_neg (by simp)]
    rfl
  · intro key s data hdec hmod hbad
    simp only [AESDecrypt]
    rw [hdec]
    dsimp only
    rw [if_pos (normalizeKey_length key), if_neg (by omega)]
    simp only [pkcs7UnPadding]
    rw [if_neg ?hne, if_pos (by omega)]
    case hne =>
      intro h0
      rw [List.length_eq_zero.mp h0] at hbad
      simp at hbad

theorem C9_decrypt_fail_closed_witness :
    AESDecrypt [48, 49] ['!'] = .error "illegal base64 data" ∧
    AESDecrypt [48, 49] ['A', 'A', 'A', 'A'] =
      .error "ciphertext is not a multiple of the block size" ∧
    AESDecrypt [48, 49] [] = .error "invalid padding size" ∧
    AESDecrypt [48, 49] (b64EncodeGroups (List.replicate 16 0)) = .error "invalid padding" :=
  ⟨C9_decrypt_fail_closed.1 [48, 49] ['!'] (by decide),
   C9_decrypt_fail_closed.2.1 [48, 49] ['A', 'A', 'A', 'A'] [0, 0, 0] (by decide) (by decide),
   C9_decrypt_fail_closed.2.2.1 [48, 49] [] (by decide),
   C9_decrypt_fail_closed.2.2.2 [48, 49] (b64EncodeGroups (List.replicate 16 0))
     (List.replicate 16 0) (by decide) (by decide) (by decide)⟩

/-- C10: `pkcs7UnPadding` checks only non-emptiness and that the last byte
does not exceed the buffer length: under those two conditions it returns
the buffer minus its last byte's worth of trailing bytes — a last byte of 0
returns the buffer unchanged — and its verdict depends only on the length
and the last byte, never on the other pad bytes; the encryption.go copy
returns the same values. -/
theorem C10_unpadding_minimal :
    (∀ data : List Nat, data ≠ [] → data.getD (data.length - 1) 0 ≤ data.length →
      pkcs7UnPadding data =
        .ok (data.take (data.length - data.getD (data.length - 1) 0))) ∧
    (∀ data : List Nat, data ≠ [] → data.getD (data.length - 1) 0 = 0 →
      pkcs7UnPadding data = .ok data) ∧
    pkcs7UnPadding [] = .error "invalid padding size" ∧
    (∀ data : List Nat, data.length < data.getD (data.length - 1) 0 →
      pkcs7UnPadding data = .error "invalid padding") ∧
    (∀ (front1 front2 : List Nat) (b : Nat), front1.length = front2.length →
      (pkcs7UnPadding (front1 ++ [b])).isOk = (pkcs7UnPadding (front2 ++ [b])).isOk) ∧
    (∀ data : List Nat, (pkcs7UnPadding data).toOption = (pkcs7UnPaddingEnc data).toOption) := by
  have hlast : ∀ (front : List Nat) (b : Nat),
      (front ++ [b]).getD ((front ++ [b]).length - 1) 0 = b := by
    intro front b
    have h1 : (front ++ [b]).length - 1 = front.length := by simp
    rw [h1, List.getD_append_right _ _ _ _ (Nat.le_refl _)]
    simp
  refine ⟨?_, ?_, rfl, ?_, ?_, ?_⟩
  · intro data hne hle
    simp only [pkcs7UnPadding]
    rw [if_neg (fun h => hne (List.length_eq_zero.mp h)), if_neg (by omega)]
  · intro data hne h0
    simp only [pkcs7UnPadding]
    rw [if_neg (fun h => hne (List.length_eq_zero.mp h)), h0, if_neg (by omega)]
    rw [Nat.sub_zero, List.take_length]
  · intro data hlt
    have hne : ¬data.length = 0 := by
      intro h0
      rw [List.length_eq_zero.mp h0] at hlt
      simp at hlt
    simp only [pkcs7UnPadding]
    rw [if_neg hne, if_pos (by omega)]
  · intro front1 front2 b hlen
    have he : ∀ front : List Nat, pkcs7UnPadding (front ++ [b]) =
        if b > (front ++ [b]).length then Except.error "invalid padding"
        else .ok ((front ++ [b]).take ((front ++ [b]).length - b)) := by
      intro front
      simp only [pkcs7UnPadding, hlast]
      rw [if_neg (by simp)]
    rw [he, he]
    have h2 : (front2 ++ [b]).length = (front1 ++ [b]).length := by simp [hlen]
    rw [h2]
    by_cases hb : b > (front1 ++ [b]).length
    · rw [if_pos hb, if_pos hb]
    · rw [if_neg hb, if_neg hb]
      rfl
  · intro data
    simp only [pkcs7UnPadding, pkcs7UnPaddingEnc]
    split_ifs <;> rfl

theorem C10_unpadding_minimal_witness :
    pkcs7UnPadding [9, 8, 3] = .ok [] ∧
    pkcs7UnPadding [7, 6, 1] = .ok [7, 6] ∧
    pkcs7UnPadding [5, 6, 0] = .ok [5, 6, 0] ∧
    pkcs7UnPadding [1, 2, 9] = .error "invalid padding" :=
  ⟨C10_unpadding_minimal.1 [9, 8, 3] (by decide) (by decide),
   C10_unpadding_minimal.1 [7, 6, 1] (by decide) (by decide),
   C10_unpadding_minimal.2.1 [5, 6, 0] (by decide) (by decide),
   C10_unpadding_minimal.2.2.2.1 [1, 2, 9] (by decide)⟩
